import Mathlib

/-!
Verification of the local-ollama knowledge-base MCP server
(`src/llamaindex/kb_mcp_server.py`) against its natural-language
specification.

The Python source is shallowly embedded: pure helper functions become Lean
functions over `List Char` / `String`, the `while` loop of `split_text`
becomes a fuel-indexed loop returning `Option` (fuel exhaustion models
non-termination), metadata dictionaries become association lists with
Python `dict.update` semantics, and the persisted index becomes an explicit
list of inserted documents threaded through the tool handlers.

External collaborators (BeautifulSoup parsing, the FAISS vector store, the
embedding model, the llama-index docstore) are at the boundary of the
embedding: the sectionizer is modelled over the stream of selected elements
the parse produces, and the docstore is modelled from the spec where its
behaviour decides a claim.
-/

-- ===========================================================================
-- Whitespace and text normalisation (`_clean_text`, line 54-55 of the source)
-- ===========================================================================

/-- The whitespace class of the Python regex `\s` and of `str.strip`,
restricted to the ASCII cases (space, tab, newline, carriage return,
vertical tab, form feed); the Unicode extension is verbatim. -/
def pws (c : Char) : Bool :=
  c == ' ' || c == '\t' || c == '\n' || c == '\r' || c == '\x0b' || c == '\x0c'

/-- Embedding of `re.sub(r"\s+", " ", s)`: every maximal run of whitespace
collapses to a single space. -/
def collapseWS : List Char → List Char
  | [] => []
  | [c] => if pws c then [' '] else [c]
  | c :: d :: cs =>
    if pws c && pws d then collapseWS (d :: cs)
    else (if pws c then ' ' else c) :: collapseWS (d :: cs)

/-- Embedding of Python `str.strip()`: remove leading and trailing
whitespace. -/
def stripL (l : List Char) : List Char :=
  ((l.dropWhile pws).reverse.dropWhile pws).reverse

/-- Embedding of `_clean_text` (source lines 54-55): `re.sub(r"\s+", " ", s).strip()`. -/
def _clean_text (s : String) : String :=
  String.mk (stripL (collapseWS s.data))

-- ===========================================================================
-- `_stable_id` (source lines 46-51): SHA-1 over the UTF-8 encoded parts,
-- each part followed by a NUL sentinel byte, rendered as a hex digest.
-- ===========================================================================

/-- UTF-8 encoding of a single code point (Python `str.encode("utf-8")`). -/
def utf8Char (c : Char) : List Nat :=
  let n := c.toNat
  if n < 128 then [n]
  else if n < 2048 then
    [0xC0 ||| (n >>> 6), 0x80 ||| (n &&& 0x3F)]
  else if n < 65536 then
    [0xE0 ||| (n >>> 12), 0x80 ||| ((n >>> 6) &&& 0x3F), 0x80 ||| (n &&& 0x3F)]
  else
    [0xF0 ||| (n >>> 18), 0x80 ||| ((n >>> 12) &&& 0x3F),
     0x80 ||| ((n >>> 6) &&& 0x3F), 0x80 ||| (n &&& 0x3F)]

/-- UTF-8 encoding of a string, as a byte list. -/
def utf8Encode (s : String) : List Nat :=
  s.data.flatMap utf8Char

/-- Truncation to a 32-bit word. -/
def w32 (n : Nat) : Nat := n % 4294967296

/-- Left rotation of a 32-bit word. -/
def rotl (k w : Nat) : Nat := w32 ((w <<< k) ||| (w >>> (32 - k)))

/-- Big-endian 64-bit byte encoding of `n` (the SHA-1 length field). -/
def be64 (n : Nat) : List Nat :=
  [(n >>> 56) % 256, (n >>> 48) % 256, (n >>> 40) % 256, (n >>> 32) % 256,
   (n >>> 24) % 256, (n >>> 16) % 256, (n >>> 8) % 256, n % 256]

/-- SHA-1 message padding: append `0x80`, zeros up to 56 mod 64, and the
bit length as a big-endian 64-bit integer. -/
def sha1Pad (msg : List Nat) : List Nat :=
  let padlen := (120 - (msg.length + 1) % 64) % 64
  msg ++ [0x80] ++ List.replicate padlen 0 ++ be64 (msg.length * 8)

/-- Group a byte list into big-endian 32-bit words. -/
def bytesToWords : List Nat → List Nat
  | b0 :: b1 :: b2 :: b3 :: rest =>
    (((b0 * 256 + b1) * 256 + b2) * 256 + b3) :: bytesToWords rest
  | _ => []

/-- One step of the SHA-1 message schedule, on the reversed word list
(newest word at the head). -/
def schedStep (r : List Nat) : List Nat :=
  rotl 1 (r.getD 2 0 ^^^ r.getD 7 0 ^^^ r.getD 13 0 ^^^ r.getD 15 0) :: r

/-- Extend the reversed word list by `n` scheduled words. -/
def sched : Nat → List Nat → List Nat
  | 0, r => r
  | n + 1, r => sched n (schedStep r)

/-- The SHA-1 round function for round `i`. -/
def sha1F (i b c d : Nat) : Nat :=
  if i < 20 then (b &&& c) ||| ((b ^^^ 0xFFFFFFFF) &&& d)
  else if i < 40 then b ^^^ c ^^^ d
  else if i < 60 then (b &&& c) ||| (b &&& d) ||| (c &&& d)
  else b ^^^ c ^^^ d

/-- The SHA-1 round constant for round `i`. -/
def sha1K (i : Nat) : Nat :=
  if i < 20 then 0x5A827999
  else if i < 40 then 0x6ED9EBA1
  else if i < 60 then 0x8F1BBCDC
  else 0xCA62C1D6

/-- One SHA-1 compression round: state `(a,b,c,d,e)` updated with round
index `i` and schedule word `w`. -/
def sha1Round (st : Nat × Nat × Nat × Nat × Nat) (iw : Nat × Nat) :
    Nat × Nat × Nat × Nat × Nat :=
  let (a, b, c, d, e) := st
  let (i, w) := iw
  (w32 (rotl 5 a + sha1F i b c d + e + sha1K i + w), a, rotl 30 b, c, d)

/-- Process one 64-byte SHA-1 block. -/
def sha1Block (h : Nat × Nat × Nat × Nat × Nat) (block : List Nat) :
    Nat × Nat × Nat × Nat × Nat :=
  let ws := (sched 64 (bytesToWords block).reverse).reverse
  let (h0, h1, h2, h3, h4) := h
  let (a, b, c, d, e) :=
    ((List.range 80).zip ws).foldl sha1Round (h0, h1, h2, h3, h4)
  (w32 (h0 + a), w32 (h1 + b), w32 (h2 + c), w32 (h3 + d), w32 (h4 + e))

/-- Fold SHA-1 over the 64-byte blocks of a padded message; the fuel is an
upper bound on the block count (each step consumes 64 bytes), kept
structural so the kernel can evaluate digests. -/
def sha1BlocksF : Nat → Nat × Nat × Nat × Nat × Nat → List Nat →
    Nat × Nat × Nat × Nat × Nat
  | 0, h, _ => h
  | _, h, [] => h
  | fuel + 1, h, msg => sha1BlocksF fuel (sha1Block h (msg.take 64)) (msg.drop 64)

/-- A lowercase hexadecimal digit. -/
def hexDigit (d : Nat) : Char :=
  if d < 10 then Char.ofNat (48 + d) else Char.ofNat (87 + d)

/-- The 8 lowercase hex digits of a 32-bit word, most significant first. -/
def hex8 (n : Nat) : List Char :=
  (List.range 8).map (fun k => hexDigit ((n >>> ((7 - k) * 4)) % 16))

/-- The five SHA-1 state words of a message after padding and block
processing. -/
def sha1Digest (msg : List Nat) : Nat × Nat × Nat × Nat × Nat :=
  sha1BlocksF ((sha1Pad msg).length)
    (0x67452301, 0xEFCDAB89, 0x98BADCFE, 0x10325476, 0xC3D2E1F0) (sha1Pad msg)

/-- SHA-1 hex digest of a byte list (`hashlib.sha1(...).hexdigest()`). -/
def sha1Hex (msg : List Nat) : String :=
  String.mk (hex8 (sha1Digest msg).1 ++ hex8 (sha1Digest msg).2.1 ++
    hex8 (sha1Digest msg).2.2.1 ++ hex8 (sha1Digest msg).2.2.2.1 ++
    hex8 (sha1Digest msg).2.2.2.2)

/-- Embedding of `_stable_id` (source lines 46-51): SHA-1 over the UTF-8 bytes of the
parts, each followed by a `b"\x00"` sentinel, as a hex digest. -/
def _stable_id (parts : List String) : String :=
  sha1Hex (parts.flatMap (fun p => utf8Encode p ++ [0]))

-- ===========================================================================
-- `split_text` (source lines 124-138)
-- ===========================================================================

/-- The next window start of `split_text` (source line 137):
`start = max(0, end - overlap)` with `end = min(len(text), start + max_chars)`
(truncated `Nat` subtraction is exactly `max(0, end - overlap)`). -/
def splitNext (textLen maxChars overlap start : Nat) : Nat :=
  min textLen (start + maxChars) - overlap

/-- The `while start < len(text)` loop of `split_text` (source lines
130-137), indexed by fuel; `none` models a loop that is still running when
the fuel is exhausted (the source loop need not terminate when
`overlap >= max_chars`). -/
def splitLoop (t : List Char) (maxChars overlap : Nat) :
    Nat → Nat → Option (List (List Char))
  | 0, _ => none
  | fuel + 1, start =>
    if start < t.length then
      let e := min t.length (start + maxChars)
      let chunk := stripL ((t.drop start).take (e - start))
      if e = t.length then some (if chunk = [] then [] else [chunk])
      else
        (splitLoop t maxChars overlap fuel (splitNext t.length maxChars overlap start)).map
          (fun cs => if chunk = [] then cs else chunk :: cs)
    else some []

/-- Embedding of `split_text` (source lines 124-138).  A text no longer than `max_chars`
is returned unchanged as a single chunk; otherwise the sliding-window loop
runs with fuel `len(text) + 1` (shown sufficient whenever
`overlap < max_chars`). -/
def split_text (text : String) (maxChars overlap : Nat) : Option (List String) :=
  if text.data.length ≤ maxChars then some [text]
  else (splitLoop text.data maxChars overlap (text.data.length + 1) 0).map
    (List.map String.mk)

/-- Specialisation of `split_text` to its default arguments `max_chars=2000, overlap=200`
(the only way the rest of the source calls it); total because the loop
terminates for these arguments. -/
def splitTextD (text : String) : List String :=
  (split_text text 2000 200).getD [text]

-- ===========================================================================
-- `html_to_sections` (source lines 62-121)
--
-- The BeautifulSoup parse (line 63), the removal of script/style/noscript/svg
-- elements (lines 65-66) and the content-root selection (line 68) belong to
-- the external parser; the traversal is embedded over the stream of elements
-- that `root.select("h1,h2,h3,h4,h5,h6,p,li,pre,code,table")` yields, each
-- carrying its tag name and its text under the two separators the source
-- uses with `get_text`.
-- ===========================================================================

/-- Python `str.lower()`, character by character (kernel-computable
equivalent of `String.toLower`). -/
def lowerS (s : String) : String :=
  String.mk (s.data.map Char.toLower)

/-- Python `str.startswith(pre)` (kernel-computable equivalent of
`String.startsWith`). -/
def startsWithS (s pre : String) : Bool :=
  s.data.take pre.data.length == pre.data

/-- One element of the selected stream: `name` is `el.name`, `text` models
`el.get_text(" ", strip=True)` and `textNL` models
`el.get_text("\n", strip=True)` (used only for `pre`/`code`). -/
structure Elem where
  name : String
  text : String
  textNL : String
  deriving DecidableEq, Repr

/-- A section produced by `html_to_sections`: the dict
`{"heading_path": ..., "text": ...}`. -/
structure Section where
  heading_path : List String
  text : String
  deriving DecidableEq, Repr

/-- The mutable state of the `html_to_sections` traversal: `heading_stack`,
`sections`, `current_lines`, `current_path` (source lines 70-73), with the
top of the stack at the end of the list as in the Python list. -/
structure SecState where
  heading_stack : List (Nat × String)
  sections : List Section
  current_lines : List String
  current_path : List String
  deriving DecidableEq, Repr

/-- Embedding of `flush()` (source lines 75-80): normalise the joined accumulated lines,
emit a section if the result is non-empty, and reset the accumulator. -/
def flushState (st : SecState) : SecState :=
  let text := _clean_text (String.intercalate "\n" st.current_lines)
  if text = "" then { st with current_lines := [] }
  else
    { st with
      sections := st.sections ++ [{ heading_path := st.current_path, text := text }]
      current_lines := [] }

/-- The `while heading_stack and heading_stack[-1][0] >= level` pop loop
(source lines 91-92): drop entries from the top of the stack while their
level is at least `level`. -/
def popGE (stack : List (Nat × String)) (level : Nat) : List (Nat × String) :=
  (stack.reverse.dropWhile (fun p => level ≤ p.1)).reverse

/-- Embedding of `int(name[1])` (source line 87): the heading level digit. -/
def headingLevel (name : String) : Nat :=
  (name.data.getD 1 '0').toNat - '0'.toNat

/-- The body of the `for el in root.select(...)` loop (source lines 82-112),
as a state transformer over one element. -/
def stepEl (st : SecState) (el : Elem) : SecState :=
  let name := lowerS el.name
  if startsWithS name "h" then
    let st1 := flushState st
    let level := headingLevel name
    let title := _clean_text el.text
    if title = "" then st1
    else
      let stack2 := popGE st1.heading_stack level ++ [(level, title)]
      { st1 with
        heading_stack := stack2
        current_path := stack2.map Prod.snd }
  else if name = "li" then
    let txt := _clean_text el.text
    if txt = "" then st
    else { st with current_lines := st.current_lines ++ ["- " ++ txt] }
  else if name = "pre" ∨ name = "code" then
    let txt := el.textNL
    if txt = "" then st
    else { st with current_lines := st.current_lines ++ ["```text\n" ++ txt ++ "\n```"] }
  else if name = "table" then
    let txt := _clean_text el.text
    if txt = "" then st
    else { st with current_lines := st.current_lines ++ ["[table] " ++ txt] }
  else
    let txt := _clean_text el.text
    if txt = "" then st
    else { st with current_lines := st.current_lines ++ [txt] }

/-- Embedding of `html_to_sections` (source lines 62-121) over the selected element
stream; `rootTextNL` models `root.get_text("\n", strip=True)`, used only by
the zero-sections fallback (lines 116-119). -/
def html_to_sections (els : List Elem) (rootTextNL : String) : List Section :=
  let st := flushState (els.foldl stepEl
    { heading_stack := [], sections := [], current_lines := [], current_path := [] })
  if st.sections.isEmpty then
    let text := _clean_text rootTextNL
    if text = "" then [] else [{ heading_path := [], text := text }]
  else st.sections

-- ===========================================================================
-- Metadata dictionaries (Python `dict` with `update`)
-- ===========================================================================

/-- A metadata value: the server stores strings, integers and the
`heading_path` list of strings. -/
inductive MetaVal where
  | s (v : String)
  | n (v : Int)
  | strs (v : List String)
  deriving DecidableEq, Repr

/-- A Python dict as an association list in insertion order. -/
abbrev Dict := List (String × MetaVal)

/-- Python `d[k] = v` on a dict: replace the entry in place if the key is
present, otherwise append it. -/
def dictSet (d : Dict) (k : String) (v : MetaVal) : Dict :=
  if d.any (fun p => p.1 == k) then
    d.map (fun p => if p.1 = k then (k, v) else p)
  else d ++ [(k, v)]

/-- Python `d.update(e)`: set every entry of `e`, in order (last write wins). -/
def dictUpdate (d : Dict) (e : Dict) : Dict :=
  e.foldl (fun acc p => dictSet acc p.1 p.2) d

-- ===========================================================================
-- The MCP tool handlers (source lines 198-263)
-- ===========================================================================

/-- A document inserted into the index: `Document(text=..., metadata=...)`. -/
structure Document where
  text : String
  metadata : Dict
  deriving DecidableEq, Repr

/-- The persisted index state visible to this model: the documents inserted
so far, in insertion order. -/
structure KBState where
  docs : List Document
  deriving DecidableEq, Repr

/-- A result value returned by a tool handler: booleans, strings, integers
and (for `kb_quote`/`kb_search`) a nested metadata mapping. -/
inductive RVal where
  | b (v : Bool)
  | s (v : String)
  | n (v : Int)
  | meta (v : Dict)
  deriving DecidableEq, Repr

/-- A tool result dict. -/
abbrev RDict := List (String × RVal)

/-- The metadata dict built by `kb_add_text` (source lines 200-202):
`{"source_id": ..., "added_at": ...}` updated with the extra metadata of the caller (`if extra_metadata: meta.update(extra_metadata)`; updating with
an empty dict is the identity, so the guard is dropped). -/
def kb_add_text_meta (source_id : String) (extra : Dict) (now : String) : Dict :=
  dictUpdate [("source_id", .s source_id), ("added_at", .s now)] extra

/-- The single document `kb_add_text` inserts (source line 203). -/
def kb_add_text_doc (source_id text : String) (extra : Dict) (now : String) :
    Document :=
  { text := text, metadata := kb_add_text_meta source_id extra now }

/-- Embedding of `kb_add_text` (source lines 198-205): insert one document and return
`{"ok": True, "source_id": source_id}`.  The wall-clock reading
`_now_iso()` is the explicit `now` argument. -/
def kb_add_text (st : KBState) (source_id text : String) (extra : Dict)
    (now : String) : KBState × RDict :=
  ({ docs := st.docs ++ [kb_add_text_doc source_id text extra now] },
   [("ok", .b true), ("source_id", .s source_id)])

/-- The metadata dict built for one HTML chunk (source lines 219-230):
the eight computed fields, updated with the extra metadata of the caller. -/
def kb_add_html_meta (url : String) (page_title : Option String) (extra : Dict)
    (now : String) (path : List String) (i : Nat) : Dict :=
  dictUpdate
    [("url", .s url),
     ("source_id", .s url),
     ("page_title", .s (page_title.getD "")),
     ("heading_path", .strs path),
     ("heading", .s ((path.getLast?).getD "")),
     ("section_id", .s (_stable_id [url, String.intercalate " / " path, toString i])),
     ("chunk_index", .n i),
     ("added_at", .s now)] extra

/-- The documents `kb_add_html` inserts (source lines 214-232): for each
section of the parsed HTML, one document per chunk of
`split_text(sec["text"])` at its enumeration index. -/
def kb_add_html_docs (url : String) (page_title : Option String) (extra : Dict)
    (now : String) (secs : List Section) : List Document :=
  secs.flatMap (fun sec =>
    (splitTextD sec.text).enum.map (fun ic =>
      { text := ic.2
        metadata := kb_add_html_meta url page_title extra now sec.heading_path ic.1 }))

/-- Embedding of `kb_add_html` (source lines 207-234) over the sections of the parsed
HTML: insert every chunk document and return
`{"ok": True, "url": url, "chunks": inserted}`. -/
def kb_add_html (st : KBState) (url : String) (secs : List Section)
    (page_title : Option String) (extra : Dict) (now : String) :
    KBState × RDict :=
  let docs := kb_add_html_docs url page_title extra now secs
  ({ docs := st.docs ++ docs },
   [("ok", .b true), ("url", .s url), ("chunks", .n docs.length)])

/-- The neighbour count `kb_search` passes to the retriever (source line
238): `similarity_top_k=max(1, min(top_k, 20))`. -/
def kb_search_similarity_top_k (top_k : Int) : Int :=
  max 1 (min top_k 20)

/-- A node held by the docstore: content plus metadata. -/
structure Node where
  content : String
  metadata : Dict
  deriving DecidableEq, Repr

/-- Modelled from the spec: the llama-index content/metadata store
collaborator behind `index.storage_context.docstore.get_node` (the store
itself is not part of this repository).  Per the collaborator
contract and error taxonomy, lookup of a present id returns its node and
lookup of an absent id signals a not-found failure naming the id. -/
def docstore_get_node (store : List (String × Node)) (node_id : String) :
    Except String Node :=
  match store.lookup node_id with
  | some node => .ok node
  | none => .error ("doc_id " ++ node_id ++ " not found.")

/-- Embedding of `kb_quote` (source lines 253-263) over an arbitrary lookup backend:
the whole body runs inside `try`, so a raising lookup becomes
`{"ok": False, "error": str(e)}` and a successful one becomes
`{"ok": True, "text": ..., "metadata": ...}` with the content truncated to
4000 characters. -/
def kb_quote (get_node : String → Except String Node) (node_id : String) :
    RDict :=
  match get_node node_id with
  | .ok node =>
    [("ok", .b true), ("text", .s (String.mk (node.content.data.take 4000))),
     ("metadata", .meta node.metadata)]
  | .error e => [("ok", .b false), ("error", .s e)]

-- ===========================================================================
-- Derived observations used by the claims
-- ===========================================================================

/-- The sequence of `section_id` metadata values of a document list. -/
def sectionIds (docs : List Document) : List (Option MetaVal) :=
  docs.map (fun d => d.metadata.lookup "section_id")

/-- The formula the spec gives for the `section_id` sequence of an HTML ingestion:
for each section, one `stable_id(url, heading_path joined by " / ",
str(chunk_index))` per chunk. -/
def specSectionIds (url : String) (secs : List Section) : List (Option MetaVal) :=
  secs.flatMap (fun sec =>
    (List.range (splitTextD sec.text).length).map (fun i =>
      some (MetaVal.s (_stable_id [url, String.intercalate " / " sec.heading_path, toString i]))))

-- ===========================================================================
-- Lemmas about Python dict lookup
-- ===========================================================================

theorem lookup_append (k : String) (l1 l2 : Dict) :
    (l1 ++ l2).lookup k = (l1.lookup k).or (l2.lookup k) := by
  induction l1 with
  | nil => simp
  | cons p l ih =>
    obtain ⟨a, b⟩ := p
    by_cases h : k = a
    · subst h
      simp [List.lookup_cons, beq_self_eq_true]
    · have hb : (k == a) = false := beq_eq_false_iff_ne.mpr h
      simp [List.lookup_cons, hb, ih]

theorem lookup_eq_none_iff (k : String) (l : Dict) :
    l.lookup k = none ↔ ∀ p ∈ l, p.1 ≠ k := by
  induction l with
  | nil => simp
  | cons p l ih =>
    obtain ⟨a, b⟩ := p
    by_cases h : k = a
    · subst h
      simp [List.lookup_cons, beq_self_eq_true]
    · have hb : (k == a) = false := beq_eq_false_iff_ne.mpr h
      simp only [List.lookup_cons, hb, ih, List.mem_cons]
      constructor
      · intro hl
        rintro p (rfl | hp)
        · exact fun hak => h hak.symm
        · exact hl p hp
      · intro hl p hp
        exact hl p (Or.inr hp)

theorem lookup_map_set_ne (d : Dict) (k1 : String) (v : MetaVal) (k : String)
    (h : k ≠ k1) :
    (d.map (fun p => if p.1 = k1 then (k1, v) else p)).lookup k = d.lookup k := by
  induction d with
  | nil => simp
  | cons p d ih =>
    obtain ⟨a, b⟩ := p
    by_cases ha : a = k1
    · subst ha
      have hb : (k == a) = false := beq_eq_false_iff_ne.mpr h
      simp [List.lookup_cons, hb, ih]
    · by_cases hk : k = a
      · subst hk
        simp [List.lookup_cons, ha, beq_self_eq_true]
      · have hb2 : (k == a) = false := beq_eq_false_iff_ne.mpr hk
        simp [List.lookup_cons, ha, hb2, ih]

theorem lookup_map_set_eq (d : Dict) (k1 : String) (v : MetaVal)
    (h : ∃ p ∈ d, p.1 = k1) :
    (d.map (fun p => if p.1 = k1 then (k1, v) else p)).lookup k1 = some v := by
  induction d with
  | nil => simp at h
  | cons p d ih =>
    obtain ⟨a, b⟩ := p
    by_cases ha : a = k1
    · subst ha
      simp [List.lookup_cons, beq_self_eq_true]
    · have hb2 : (k1 == a) = false := beq_eq_false_iff_ne.mpr (Ne.symm ha)
      obtain ⟨q, hq, hqk⟩ := h
      rcases List.mem_cons.mp hq with rfl | hq2
      · exact absurd hqk ha
      · simp [List.lookup_cons, ha, hb2, ih ⟨q, hq2, hqk⟩]

theorem lookup_dictSet (d : Dict) (k1 : String) (v : MetaVal) (k : String) :
    (dictSet d k1 v).lookup k = if k = k1 then some v else d.lookup k := by
  unfold dictSet
  by_cases hany : ∃ p ∈ d, p.1 = k1
  · have hguard : (d.any fun p => p.1 == k1) = true := by
      rw [List.any_eq_true]
      obtain ⟨p, hp, hpk⟩ := hany
      exact ⟨p, hp, by simp [hpk]⟩
    rw [if_pos hguard]
    by_cases hk : k = k1
    · subst hk
      simp [lookup_map_set_eq d k v hany]
    · simp [lookup_map_set_ne d k1 v k hk, hk]
  · have hguard : (d.any fun p => p.1 == k1) = false := by
      rw [← Bool.not_eq_true, List.any_eq_true]
      intro ⟨p, hp, hpk⟩
      exact hany ⟨p, hp, by simpa using hpk⟩
    have hnone : d.lookup k1 = none := by
      rw [lookup_eq_none_iff]
      intro p hp hpk
      exact hany ⟨p, hp, hpk⟩
    rw [hguard]
    by_cases hk : k = k1
    · subst hk
      simp [lookup_append, hnone, List.lookup_cons, beq_self_eq_true]
    · have hb : (k == k1) = false := beq_eq_false_iff_ne.mpr hk
      simp [lookup_append, hk, List.lookup_cons, hb]

theorem lookup_dictUpdate (e : Dict) (d : Dict) (k : String) :
    (dictUpdate d e).lookup k = (e.reverse.lookup k).or (d.lookup k) := by
  induction e generalizing d with
  | nil => simp [dictUpdate]
  | cons p rest ih =>
    obtain ⟨k1, v1⟩ := p
    have hstep : dictUpdate d ((k1, v1) :: rest) = dictUpdate (dictSet d k1 v1) rest := by
      simp [dictUpdate]
    rw [hstep, ih, List.reverse_cons, lookup_append, Option.or_assoc, lookup_dictSet]
    by_cases hk : k = k1
    · subst hk
      simp [List.lookup_cons, beq_self_eq_true]
    · have hb : (k == k1) = false := beq_eq_false_iff_ne.mpr hk
      simp [List.lookup_cons, hb, hk]

theorem lookup_reverse_of_nodup_keys (l : Dict) (k : String)
    (h : (l.map Prod.fst).Nodup) : l.reverse.lookup k = l.lookup k := by
  induction l with
  | nil => simp
  | cons p rest ih =>
    obtain ⟨a, b⟩ := p
    simp only [List.map_cons, List.nodup_cons] at h
    rw [List.reverse_cons, lookup_append]
    by_cases hk : k = a
    · subst hk
      have hnone : rest.lookup k = none := by
        rw [lookup_eq_none_iff]
        intro q hq hqk
        exact h.1 (hqk ▸ List.mem_map_of_mem Prod.fst hq)
      rw [ih h.2, hnone]
      simp [List.lookup_cons, beq_self_eq_true]
    · have hb : (k == a) = false := beq_eq_false_iff_ne.mpr hk
      rw [ih h.2]
      simp [List.lookup_cons, hb]

-- ===========================================================================
-- C4: the nested-heading sectionizer example
-- ===========================================================================

/-- C4: `html_to_sections` on the element stream of
`<h1>A</h1><p>x</p><h2>B</h2><p>y</p>` (the four selected elements of that
document, in document order) returns exactly two sections: heading path
`["A"]` with text `"x"`, then heading path `["A", "B"]` with text `"y"`. -/
theorem html_to_sections_nested_example :
    html_to_sections
        [{ name := "h1", text := "A", textNL := "A" },
         { name := "p", text := "x", textNL := "x" },
         { name := "h2", text := "B", textNL := "B" },
         { name := "p", text := "y", textNL := "y" }] "A\nx\nB\ny" =
      [{ heading_path := ["A"], text := "x" },
       { heading_path := ["A", "B"], text := "y" }] := by decide

-- ===========================================================================
-- C6: `kb_search` clamps the requested neighbour count to [1, 20]
-- ===========================================================================

/-- C6: for every integer `top_k`, the neighbour count `kb_search` passes
to the retriever, `max(1, min(top_k, 20))`, lies in the interval
`[1, 20]`: at most 20 even when `top_k` is larger, at least 1 even when
`top_k` is 0 or negative. -/
theorem kb_search_top_k_clamped (top_k : Int) :
    1 ≤ kb_search_similarity_top_k top_k ∧ kb_search_similarity_top_k top_k ≤ 20 :=
  ⟨le_max_left _ _, max_le (by norm_num) (min_le_right _ _)⟩

-- ===========================================================================
-- C3: a heading with empty normalised title
-- ===========================================================================

/-- C3 (amended): when the traversal meets a heading element whose
normalised title is empty, the step is exactly the flush: the accumulated
section is emitted (if non-empty) and the accumulator reset, while the
heading stack and the current heading path are left unchanged.  (The claim
as stated — that such a heading is skipped entirely, with no flush — is
refuted below: the source flushes before it checks the title, source lines
85-90.) -/
theorem empty_title_heading_flushes_but_keeps_stack
    (st : SecState) (el : Elem)
    (hh : startsWithS (lowerS el.name) "h" = true)
    (ht : _clean_text el.text = "") :
    stepEl st el = flushState st ∧
    (flushState st).heading_stack = st.heading_stack ∧
    (flushState st).current_path = st.current_path := by
  refine ⟨?_, ?_, ?_⟩
  · simp [stepEl, hh, ht]
  · simp only [flushState]
    split <;> rfl
  · simp only [flushState]
    split <;> rfl

/-- Witness for C3 (amended) at a concrete state (accumulated line `"x"`)
and the heading element `<h1> </h1>` (whitespace-only title). -/
theorem empty_title_heading_flushes_but_keeps_stack_inst :
    stepEl { heading_stack := [], sections := [], current_lines := ["x"], current_path := [] }
        { name := "h1", text := " ", textNL := " " } =
      flushState { heading_stack := [], sections := [], current_lines := ["x"], current_path := [] } ∧
    (flushState { heading_stack := [], sections := [], current_lines := ["x"], current_path := [] }).heading_stack =
      ({ heading_stack := [], sections := [], current_lines := ["x"], current_path := [] } : SecState).heading_stack ∧
    (flushState { heading_stack := [], sections := [], current_lines := ["x"], current_path := [] }).current_path =
      ({ heading_stack := [], sections := [], current_lines := ["x"], current_path := [] } : SecState).current_path :=
  empty_title_heading_flushes_but_keeps_stack _ _ (by decide) (by decide)

/-- C3 counterexample: the claim as stated says a heading with empty
normalised title leaves the traversal state untouched; at a state with a
pending accumulated line `"x"` and the heading `<h1> </h1>` the step does
change the state (it flushes: the pending section is emitted and the
accumulator reset). -/
theorem empty_title_heading_not_skipped :
    stepEl { heading_stack := [], sections := [], current_lines := ["x"], current_path := [] }
        { name := "h1", text := " ", textNL := " " } ≠
      { heading_stack := [], sections := [], current_lines := ["x"], current_path := [] } := by
  decide

-- ===========================================================================
-- C7 and C10: `kb_quote`
-- ===========================================================================

/-- C7: `kb_quote` over the spec-modelled docstore: an absent id yields
`{"ok": False, "error": ...}` with a non-empty error message, a present id
yields `{"ok": True, "text": ..., "metadata": ...}` with the stored content
truncated to 4000 characters and the full metadata mapping. -/
theorem kb_quote_found_and_not_found
    (store : List (String × Node)) (node_id : String) :
    (store.lookup node_id = none →
      kb_quote (docstore_get_node store) node_id =
        [("ok", .b false), ("error", .s ("doc_id " ++ node_id ++ " not found."))] ∧
      ("doc_id " ++ node_id ++ " not found.") ≠ "") ∧
    (∀ node, store.lookup node_id = some node →
      kb_quote (docstore_get_node store) node_id =
        [("ok", .b true), ("text", .s (String.mk (node.content.data.take 4000))),
         ("metadata", .meta node.metadata)]) := by
  constructor
  · intro habs
    constructor
    · simp [kb_quote, docstore_get_node, habs]
    · intro hcon
      have h2 := congrArg String.length hcon
      rw [String.length_append, String.length_append] at h2
      have e1 : ("doc_id " : String).length = 7 := rfl
      have e2 : (" not found." : String).length = 11 := rfl
      have e3 : ("" : String).length = 0 := rfl
      omega
  · intro node hfound
    simp [kb_quote, docstore_get_node, hfound]

/-- Witness for C7 at the concrete one-node store `{"a": ("c", {})}`:
quoting the absent id `"b"` and the present id `"a"`. -/
theorem kb_quote_found_and_not_found_inst :
    (kb_quote (docstore_get_node [("a", { content := "c", metadata := [] })]) "b" =
        [("ok", .b false), ("error", .s ("doc_id " ++ "b" ++ " not found."))] ∧
      ("doc_id " ++ "b" ++ " not found.") ≠ "") ∧
    kb_quote (docstore_get_node [("a", { content := "c", metadata := [] })]) "a" =
      [("ok", .b true),
       ("text", .s (String.mk (("c" : String).data.take 4000))),
       ("metadata", .meta [])] :=
  ⟨(kb_quote_found_and_not_found [("a", { content := "c", metadata := [] })] "b").1 (by decide),
   (kb_quote_found_and_not_found [("a", { content := "c", metadata := [] })] "a").2
     { content := "c", metadata := [] } (by decide)⟩

/-- C10: `kb_quote` never raises: its body is total over any lookup
backend, every lookup failure (any backend error, not only not-found) is
returned as `{"ok": False, "error": str(e)}`, and the result always
carries an `ok` field. -/
theorem kb_quote_never_raises
    (get_node : String → Except String Node) (node_id : String) :
    (∀ e, get_node node_id = .error e →
      kb_quote get_node node_id = [("ok", .b false), ("error", .s e)]) ∧
    (kb_quote get_node node_id).lookup "ok" ≠ none := by
  constructor
  · intro e herr
    simp [kb_quote, herr]
  · unfold kb_quote
    cases get_node node_id <;> simp [List.lookup_cons]

/-- Witness for C10 at a backend that always fails with `"boom"`. -/
theorem kb_quote_never_raises_inst :
    kb_quote (fun _ => .error "boom") "x" = [("ok", .b false), ("error", .s "boom")] ∧
    (kb_quote (fun _ => .error "boom") "x").lookup "ok" ≠ none :=
  ⟨(kb_quote_never_raises (fun _ => .error "boom") "x").1 "boom" rfl,
   (kb_quote_never_raises (fun _ => .error "boom") "x").2⟩

-- ===========================================================================
-- C8: caller-supplied extra metadata wins on key collision
-- ===========================================================================

/-- The digest rendered by `sha1Hex` always has 40 hex characters. -/
theorem stable_id_length (parts : List String) : (_stable_id parts).length = 40 := by
  simp [_stable_id, sha1Hex, hex8, String.length]

/-- C8: for both `kb_add_text` and `kb_add_html`, when a key of the
caller-supplied `extra_metadata` collides with a computed built-in field,
every unit stored in the index carries the caller-supplied value for that
key (`meta.update(extra_metadata)` is last-write-wins). -/
theorem extra_metadata_overrides_builtins
    (source_id text url : String) (page_title : Option String)
    (now1 now2 : String) (secs : List Section) (extra : Dict)
    (k : String) (v : MetaVal)
    (hnodup : (extra.map Prod.fst).Nodup) (hk : extra.lookup k = some v) :
    (kb_add_text_doc source_id text extra now1).metadata.lookup k = some v ∧
    ∀ d ∈ kb_add_html_docs url page_title extra now2 secs,
      d.metadata.lookup k = some v := by
  have key : ∀ base : Dict, (dictUpdate base extra).lookup k = some v := by
    intro base
    rw [lookup_dictUpdate, lookup_reverse_of_nodup_keys extra k hnodup, hk]
    rfl
  constructor
  · exact key _
  · intro d hd
    simp only [kb_add_html_docs, List.mem_flatMap, List.mem_map] at hd
    obtain ⟨sec, hsec, ic, hic, hEq⟩ := hd
    rw [← hEq]
    exact key _

/-- Witness for C8: the caller overrides the computed `chunk_index` with the
value 7 and that value ends up stored, for a text unit and for every unit
of a one-chunk HTML ingestion. -/
theorem extra_metadata_overrides_builtins_inst :
    (kb_add_text_doc "s" "t" [("chunk_index", MetaVal.n 7)] "now").metadata.lookup "chunk_index" =
      some (MetaVal.n 7) ∧
    ∀ d ∈ kb_add_html_docs "u" none [("chunk_index", MetaVal.n 7)] "now"
        [{ heading_path := [], text := "t" }],
      d.metadata.lookup "chunk_index" = some (MetaVal.n 7) :=
  extra_metadata_overrides_builtins "s" "t" "u" none "now" "now"
    [{ heading_path := [], text := "t" }] [("chunk_index", MetaVal.n 7)]
    "chunk_index" (MetaVal.n 7) (by decide) (by decide)

-- ===========================================================================
-- C1: determinism of the `section_id` sequence of `kb_add_html`
-- ===========================================================================

/-- The `section_id` entry of the metadata built for one HTML chunk: the
caller override if `extra` carries the key, otherwise the computed
`_stable_id(url, " / ".join(path), str(i))`. -/
theorem lookup_section_id_meta (url : String) (pt : Option String)
    (extra : Dict) (now : String) (path : List String) (i : Nat) :
    (kb_add_html_meta url pt extra now path i).lookup "section_id" =
      (extra.reverse.lookup "section_id").or
        (some (.s (_stable_id [url, String.intercalate " / " path, toString i]))) := by
  rw [kb_add_html_meta, lookup_dictUpdate]
  congr 1

/-- The `section_id` sequence of an HTML ingestion, in closed form: it
depends only on `url`, the sections and the extra metadata — not on the
timestamp. -/
theorem sectionIds_kb_add_html_docs (url : String) (pt : Option String)
    (extra : Dict) (now : String) (secs : List Section) :
    sectionIds (kb_add_html_docs url pt extra now secs) =
      secs.flatMap (fun sec =>
        (List.range (splitTextD sec.text).length).map (fun i =>
          (extra.reverse.lookup "section_id").or
            (some (.s (_stable_id [url, String.intercalate " / " sec.heading_path, toString i]))))) := by
  unfold sectionIds kb_add_html_docs
  rw [List.map_flatMap]
  apply List.flatMap_congr
  intro sec hsec
  rw [List.map_map]
  simp only [Function.comp_def, lookup_section_id_meta]
  rw [show (fun (ic : Nat × String) =>
        (extra.reverse.lookup "section_id").or
          (some (MetaVal.s (_stable_id [url, String.intercalate " / " sec.heading_path, toString ic.1])))) =
      (fun i =>
        (extra.reverse.lookup "section_id").or
          (some (MetaVal.s (_stable_id [url, String.intercalate " / " sec.heading_path, toString i])))) ∘
        Prod.fst from rfl,
    ← List.map_map, List.enum_map_fst]

/-- C1 (amended): the `section_id` metadata values of the units inserted by
`kb_add_html` form the same sequence on any two runs over the same url,
page title, extra metadata and section stream — independent of the
wall-clock reading and of the prior index state; and when the caller does
not supply a `section_id` key, each value is exactly
`stable_id(url, " / ".join(heading_path), str(chunk_index))`.  (The claim
as stated, which asserts the stable-id formula for every extra metadata, is
refuted below: an extra `section_id` key overrides the computed value.) -/
theorem kb_add_html_section_ids_stable
    (url : String) (pt : Option String) (extra : Dict)
    (now1 now2 : String) (st1 st2 : KBState) (secs : List Section) :
    sectionIds ((kb_add_html st1 url secs pt extra now1).1.docs.drop st1.docs.length) =
      sectionIds ((kb_add_html st2 url secs pt extra now2).1.docs.drop st2.docs.length) ∧
    (extra.lookup "section_id" = none →
      sectionIds ((kb_add_html st1 url secs pt extra now1).1.docs.drop st1.docs.length) =
        specSectionIds url secs) := by
  have hdrop : ∀ (st : KBState) (now : String),
      (kb_add_html st url secs pt extra now).1.docs.drop st.docs.length =
        kb_add_html_docs url pt extra now secs := by
    intro st now
    simp [kb_add_html, List.drop_left]
  constructor
  · rw [hdrop, hdrop, sectionIds_kb_add_html_docs, sectionIds_kb_add_html_docs]
  · intro hnone
    have hrev : extra.reverse.lookup "section_id" = none := by
      rw [lookup_eq_none_iff] at hnone ⊢
      intro p hp
      exact hnone p (List.mem_reverse.mp hp)
    rw [hdrop, sectionIds_kb_add_html_docs]
    unfold specSectionIds
    simp [hrev]

/-- Witness for C1 (amended) at a concrete one-section ingestion with empty
extra metadata, two distinct timestamps and two distinct prior states. -/
theorem kb_add_html_section_ids_stable_inst :
    sectionIds ((kb_add_html { docs := [] } "u" [{ heading_path := [], text := "t" }] none [] "now1").1.docs.drop
        ({ docs := [] } : KBState).docs.length) =
      sectionIds ((kb_add_html { docs := [{ text := "old", metadata := [] }] } "u"
          [{ heading_path := [], text := "t" }] none [] "now2").1.docs.drop
        ({ docs := [{ text := "old", metadata := [] }] } : KBState).docs.length) ∧
    sectionIds ((kb_add_html { docs := [] } "u" [{ heading_path := [], text := "t" }] none [] "now1").1.docs.drop
        ({ docs := [] } : KBState).docs.length) =
      specSectionIds "u" [{ heading_path := [], text := "t" }] :=
  ⟨(kb_add_html_section_ids_stable "u" none [] "now1" "now2" { docs := [] }
      { docs := [{ text := "old", metadata := [] }] } [{ heading_path := [], text := "t" }]).1,
   (kb_add_html_section_ids_stable "u" none [] "now1" "now2" { docs := [] }
      { docs := [{ text := "old", metadata := [] }] } [{ heading_path := [], text := "t" }]).2 rfl⟩

/-- C1 counterexample: with `extra_metadata = {"section_id": "x"}` the
stored `section_id` of the single chunk of a one-section ingestion is the
caller value `"x"`, not the computed stable id (hex digests have 40
characters), so the claim does not hold for every `extra_metadata`. -/
theorem kb_add_html_section_id_extra_override :
    sectionIds (kb_add_html_docs "u" none [("section_id", MetaVal.s "x")] "now"
        [{ heading_path := [], text := "t" }]) ≠
      [some (MetaVal.s (_stable_id ["u", String.intercalate " / " [], toString (0 : Nat)]))] := by
  have h1 : sectionIds (kb_add_html_docs "u" none [("section_id", MetaVal.s "x")] "now"
      [{ heading_path := [], text := "t" }]) = [some (MetaVal.s "x")] := by decide
  rw [h1]
  intro hcon
  have h3 : "x" = _stable_id ["u", String.intercalate " / " [], toString (0 : Nat)] := by
    simpa using hcon
  have h4 := congrArg String.length h3
  rw [stable_id_length] at h4
  exact absurd h4 (by decide)

-- ===========================================================================
-- C5 and C2: the chunker loop
-- ===========================================================================

/-- Dropping a false prefix keeps every element on which the predicate is
false. -/
theorem mem_dropWhile_of_mem (p : Char → Bool) (c : Char) (hp : p c = false) :
    ∀ l : List Char, c ∈ l → c ∈ l.dropWhile p := by
  intro l
  induction l with
  | nil => intro h; exact absurd h (List.not_mem_nil c)
  | cons a as ih =>
    intro h
    by_cases ha : p a = true
    · rw [List.dropWhile_cons, if_pos ha]
      rcases List.mem_cons.mp h with rfl | h2
      · rw [ha] at hp
        exact absurd hp (by simp)
      · exact ih h2
    · rw [List.dropWhile_cons, if_neg ha]
      exact h

/-- Stripping only removes whitespace, so every non-whitespace element
survives. -/
theorem mem_stripL (c : Char) (l : List Char) (hp : pws c = false)
    (hc : c ∈ l) : c ∈ stripL l := by
  unfold stripL
  rw [List.mem_reverse]
  apply mem_dropWhile_of_mem pws c hp
  rw [List.mem_reverse]
  exact mem_dropWhile_of_mem pws c hp l hc

/-- A non-whitespace character inside the window `[start, e)` survives into
the stripped window slice. -/
theorem mem_window (t : List Char) (start e i : Nat) (h1 : start ≤ i)
    (h2 : i < e) (h3 : e ≤ t.length) (hi : i < t.length)
    (hpw : pws t[i] = false) :
    t[i] ∈ stripL ((t.drop start).take (e - start)) := by
  apply mem_stripL _ _ hpw
  have hlen : ((t.drop start).take (e - start)).length = e - start := by
    simp only [List.length_take, List.length_drop]
    omega
  have hj : i - start < ((t.drop start).take (e - start)).length := by omega
  have hval : ((t.drop start).take (e - start))[i - start] = t[i] := by
    rw [List.getElem_take, List.getElem_drop]
    have hidx : start + (i - start) = i := by omega
    simp only [hidx]
  rw [← hval]
  exact List.getElem_mem hj

/-- The chunker loop returns within `len(text) - start + 1` iterations when
`overlap < max_chars`: the fuel never runs out. -/
theorem splitLoop_isSome (t : List Char) (m o : Nat) (ho : o < m) :
    ∀ fuel start, t.length - start < fuel → (splitLoop t m o fuel start).isSome := by
  intro fuel
  induction fuel with
  | zero => intro start h; omega
  | succ fuel ih =>
    intro start h
    simp only [splitLoop]
    by_cases hs : start < t.length
    · simp only [if_pos hs]
      by_cases he : min t.length (start + m) = t.length
      · simp [he]
      · simp only [if_neg he]
        have hlt : start + m < t.length := by
          by_contra hc
          push_neg at hc
          exact he (Nat.min_eq_left hc)
        have hnext : splitNext t.length m o start = start + m - o := by
          unfold splitNext
          rw [Nat.min_eq_right (Nat.le_of_lt hlt)]
        have hfuel : t.length - splitNext t.length m o start < fuel := by
          rw [hnext]
          omega
        have hrecsome := ih (splitNext t.length m o start) hfuel
        obtain ⟨cs, hrec⟩ := Option.isSome_iff_exists.mp hrecsome
        rw [hrec]
        simp
    · simp [hs]

/-- Coverage invariant of the chunker loop: if the loop returns, every
non-whitespace character at or beyond the current window start appears in
one of the returned chunks. -/
theorem splitLoop_covers (t : List Char) (m o : Nat) :
    ∀ fuel start cs, splitLoop t m o fuel start = some cs →
      ∀ i, i < t.length → start ≤ i →
        ∀ hi : i < t.length, pws t[i] = false → ∃ ch ∈ cs, t[i] ∈ ch := by
  intro fuel
  induction fuel with
  | zero =>
    intro start cs h
    simp [splitLoop] at h
  | succ fuel ih =>
    intro start cs hcs i hilt hstart hi hpw
    simp only [splitLoop] at hcs
    by_cases hs : start < t.length
    · simp only [if_pos hs] at hcs
      by_cases he : min t.length (start + m) = t.length
      · simp only [if_pos he] at hcs
        have hie : i < min t.length (start + m) := by omega
        have hmem := mem_window t start (min t.length (start + m)) i hstart hie
          (Nat.min_le_left _ _) hi hpw
        have hne : stripL ((t.drop start).take (min t.length (start + m) - start)) ≠ [] :=
          List.ne_nil_of_mem hmem
        rw [if_neg hne] at hcs
        obtain rfl : [stripL ((t.drop start).take (min t.length (start + m) - start))] = cs :=
          Option.some.inj hcs
        exact ⟨_, List.mem_singleton_self _, hmem⟩
      · simp only [if_neg he] at hcs
        have hlt : start + m < t.length := by
          by_contra hc
          push_neg at hc
          exact he (Nat.min_eq_left hc)
        have hmin : min t.length (start + m) = start + m :=
          Nat.min_eq_right (Nat.le_of_lt hlt)
        rcases hrec : splitLoop t m o fuel (splitNext t.length m o start) with _ | cs0
        · rw [hrec] at hcs
          simp at hcs
        · rw [hrec] at hcs
          simp only [Option.map_some', Option.some.injEq] at hcs
          by_cases hie : i < min t.length (start + m)
          · have hmem := mem_window t start (min t.length (start + m)) i hstart hie
              (Nat.min_le_left _ _) hi hpw
            have hne : stripL ((t.drop start).take (min t.length (start + m) - start)) ≠ [] :=
              List.ne_nil_of_mem hmem
            rw [if_neg hne] at hcs
            subst hcs
            exact ⟨_, List.mem_cons_self _ _, hmem⟩
          · have hstart2 : splitNext t.length m o start ≤ i := by
              unfold splitNext
              rw [hmin]
              omega
            obtain ⟨ch, hch, hchm⟩ := ih (splitNext t.length m o start) cs0 hrec i hilt hstart2 hi hpw
            refine ⟨ch, ?_, hchm⟩
            by_cases hchunk : stripL ((t.drop start).take (min t.length (start + m) - start)) = []
            · rw [if_pos hchunk] at hcs
              subst hcs
              exact hch
            · rw [if_neg hchunk] at hcs
              subst hcs
              exact List.mem_cons_of_mem _ hch
    · omega

/-- C5: for every text and all parameters with `0 <= overlap < max_chars`,
`split_text` terminates: the window start strictly increases on every loop
iteration that continues (any window not reaching the end of the text), and
the loop — run here with fuel `len(text) + 1` — finishes within its fuel,
stopping once a window ends exactly at `len(text)`. -/
theorem split_text_terminates (t : String) (m o : Nat) (ho : o < m) :
    (∀ start, start + m < t.data.length → start < splitNext t.data.length m o start) ∧
    (split_text t m o).isSome := by
  constructor
  · intro start hst
    unfold splitNext
    rw [Nat.min_eq_right (Nat.le_of_lt hst)]
    omega
  · unfold split_text
    by_cases hle : t.data.length ≤ m
    · rw [if_pos hle]
      rfl
    · rw [if_neg hle]
      have hsome := splitLoop_isSome t.data m o ho (t.data.length + 1) 0 (by omega)
      obtain ⟨cs, hrec⟩ := Option.isSome_iff_exists.mp hsome
      rw [hrec]
      simp

/-- Witness for C5 at `text = "abc", max_chars = 2, overlap = 0`. -/
theorem split_text_terminates_inst :
    (0 < splitNext ("abc" : String).data.length 2 0 0) ∧
    (split_text "abc" 2 0).isSome :=
  ⟨(split_text_terminates "abc" 2 0 (by decide)).1 0 (by decide),
   (split_text_terminates "abc" 2 0 (by decide)).2⟩

/-- C2 (amended): under `overlap >= 0`, `max_chars > overlap` and
`len(text) > max_chars`, every non-whitespace character of the text appears
in at least one returned chunk.  (The claim as stated — coverage of every
character — is refuted below: a whitespace character lying at a window
boundary is removed by the per-window `strip()` and can appear in no
chunk.) -/
theorem split_text_covers_nonwhitespace (t : String) (m o : Nat)
    (ho : o < m) (hlong : m < t.data.length) :
    ∀ c ∈ t.data, pws c = false →
      ∃ cs ch, split_text t m o = some cs ∧ ch ∈ cs ∧ c ∈ ch.data := by
  intro c hc hpw
  have hnle : ¬ t.data.length ≤ m := by omega
  have hsome := splitLoop_isSome t.data m o ho (t.data.length + 1) 0 (by omega)
  obtain ⟨cs0, hloop⟩ := Option.isSome_iff_exists.mp hsome
  obtain ⟨i, hi, hival⟩ := List.mem_iff_getElem.mp hc
  have hcov := splitLoop_covers t.data m o (t.data.length + 1) 0 cs0 hloop i hi
    (Nat.zero_le i) hi (by rw [hival]; exact hpw)
  obtain ⟨ch, hch, hchm⟩ := hcov
  refine ⟨cs0.map String.mk, String.mk ch, ?_, ?_, ?_⟩
  · unfold split_text
    rw [if_neg hnle, hloop]
    rfl
  · exact List.mem_map_of_mem String.mk hch
  · rw [hival] at hchm
    exact hchm

/-- Witness for C2 (amended) at `text = "abcd", max_chars = 2, overlap = 0`
and the character `a`. -/
theorem split_text_covers_nonwhitespace_inst :
    ∃ cs ch, split_text "abcd" 2 0 = some cs ∧ ch ∈ cs ∧ 'a' ∈ ch.data :=
  split_text_covers_nonwhitespace "abcd" 2 0 (by decide) (by decide) 'a'
    (by decide) (by decide)

/-- C2 counterexample: for `text = "a b", max_chars = 2, overlap = 0`
(which satisfy `len(text) > max_chars`, `overlap >= 0`,
`max_chars > overlap`) the chunks are `["a", "b"]` and the space character
of the text appears in neither, so not every character of the original
text is covered by a returned chunk. -/
theorem split_text_whitespace_uncovered :
    ¬ (∀ c ∈ ("a b" : String).data,
        ∃ cs ch, split_text "a b" 2 0 = some cs ∧ ch ∈ cs ∧ c ∈ ch.data) := by
  intro h
  obtain ⟨cs, ch, hcs, hch, hc⟩ := h ' ' (by decide)
  have he : split_text "a b" 2 0 = some ["a", "b"] := by decide
  rw [he] at hcs
  injection hcs with hcs2
  subst hcs2
  rcases List.mem_cons.mp hch with rfl | h2
  · exact absurd hc (by decide)
  · rcases List.mem_cons.mp h2 with rfl | h3
    · exact absurd hc (by decide)
    · exact absurd h3 (List.not_mem_nil ch)

-- ===========================================================================
-- C9: idempotence of the normaliser `_clean_text`
-- ===========================================================================

/-- Every whitespace character surviving `collapseWS` is the space that
replaced its run. -/
theorem wok_collapseWS : ∀ l : List Char, ∀ c ∈ collapseWS l,
    pws c = true → c = ' ' := by
  intro l
  induction l with
  | nil => simp [collapseWS]
  | cons c cs ih =>
    cases cs with
    | nil =>
      intro x hx hpx
      rw [collapseWS.eq_2] at hx
      by_cases hc : pws c = true
      · rw [if_pos hc] at hx
        simpa using hx
      · rw [if_neg hc] at hx
        simp at hx
        subst hx
        exact absurd hpx hc
    | cons d cs2 =>
      intro x hx hpx
      rw [collapseWS.eq_3] at hx
      by_cases hcd : (pws c && pws d) = true
      · rw [if_pos hcd] at hx
        exact ih x hx hpx
      · rw [if_neg hcd] at hx
        rcases List.mem_cons.mp hx with rfl | h2
        · by_cases hc : pws c = true
          · simp [hc]
          · rw [if_neg hc] at hpx ⊢
            exact absurd hpx hc
        · exact ih x h2 hpx

/-- The collapse of a non-empty list is non-empty and the head keeps the
whitespace status of the original head. -/
theorem collapseWS_cons_head : ∀ (cs : List Char) (d : Char),
    ∃ x xs, collapseWS (d :: cs) = x :: xs ∧ pws x = pws d := by
  intro cs
  induction cs with
  | nil =>
    intro d
    rw [collapseWS.eq_2]
    by_cases hd : pws d = true
    · exact ⟨' ', [], by rw [if_pos hd], by rw [hd]; decide⟩
    · exact ⟨d, [], by rw [if_neg hd], rfl⟩
  | cons e cs2 ih =>
    intro d
    rw [collapseWS.eq_3]
    by_cases hde : (pws d && pws e) = true
    · obtain ⟨x, xs, heq, hx⟩ := ih e
      obtain ⟨hd, he⟩ : pws d = true ∧ pws e = true := by simpa using hde
      exact ⟨x, xs, by rw [if_pos hde]; exact heq, by rw [hx, he, hd]⟩
    · by_cases hd : pws d = true
      · exact ⟨' ', collapseWS (e :: cs2), by rw [if_neg hde, if_pos hd],
          by rw [hd]; decide⟩
      · exact ⟨d, collapseWS (e :: cs2), by rw [if_neg hde, if_neg hd], rfl⟩

/-- No two adjacent characters of a collapsed list are both whitespace. -/
theorem ntw_collapseWS : ∀ l : List Char,
    List.Chain' (fun a b => ¬(pws a = true ∧ pws b = true)) (collapseWS l) := by
  intro l
  induction l with
  | nil => simp [collapseWS]
  | cons c cs ih =>
    cases cs with
    | nil =>
      rw [collapseWS.eq_2]
      by_cases hc : pws c = true
      · rw [if_pos hc]; exact List.chain'_singleton _
      · rw [if_neg hc]; exact List.chain'_singleton _
    | cons d cs2 =>
      rw [collapseWS.eq_3]
      by_cases hcd : (pws c && pws d) = true
      · rw [if_pos hcd]; exact ih
      · rw [if_neg hcd]
        obtain ⟨x, xs, heq, hx⟩ := collapseWS_cons_head cs2 d
        rw [heq]
        rw [heq] at ih
        rw [List.chain'_cons]
        refine ⟨?_, ih⟩
        intro ⟨h1, h2⟩
        apply hcd
        rw [Bool.and_eq_true]
        constructor
        · by_cases hc : pws c = true
          · exact hc
          · rw [if_neg hc] at h1; exact absurd h1 hc
        · rw [← hx]; exact h2

/-- Collapsing is the identity on a list whose whitespace is single spaces
with no two adjacent. -/
theorem collapseWS_eq_self : ∀ l : List Char,
    (∀ c ∈ l, pws c = true → c = ' ') →
    List.Chain' (fun a b => ¬(pws a = true ∧ pws b = true)) l →
    collapseWS l = l := by
  intro l
  induction l with
  | nil => intro _ _; rfl
  | cons c cs ih =>
    cases cs with
    | nil =>
      intro hwok _
      rw [collapseWS.eq_2]
      by_cases hc : pws c = true
      · rw [if_pos hc, hwok c (by simp) hc]
      · rw [if_neg hc]
    | cons d cs2 =>
      intro hwok hntw
      rw [collapseWS.eq_3]
      obtain ⟨hcd, htail⟩ := List.chain'_cons.mp hntw
      have hcdf : (pws c && pws d) = false := by
        rw [← Bool.not_eq_true, Bool.and_eq_true]
        exact hcd
      rw [hcdf]
      simp only [Bool.false_eq_true, if_false]
      have htl := ih (fun x hx => hwok x (List.mem_cons_of_mem c hx)) htail
      rw [htl]
      by_cases hc : pws c = true
      · rw [if_pos hc, hwok c (by simp) hc]
      · rw [if_neg hc]

/-- The no-two-adjacent-whitespace property is symmetric, hence preserved
by reversal. -/
theorem ntw_reverse (l : List Char)
    (h : List.Chain' (fun a b => ¬(pws a = true ∧ pws b = true)) l) :
    List.Chain' (fun a b => ¬(pws a = true ∧ pws b = true)) l.reverse := by
  rw [List.chain'_reverse]
  exact h.imp (fun a b hab => fun hba => hab ⟨hba.2, hba.1⟩)

/-- Stripping keeps only characters of the original list. -/
theorem mem_of_mem_stripL (c : Char) (l : List Char) (h : c ∈ stripL l) :
    c ∈ l := by
  unfold stripL at h
  rw [List.mem_reverse] at h
  have h2 := (List.dropWhile_sublist pws).subset h
  rw [List.mem_reverse] at h2
  exact (List.dropWhile_sublist pws).subset h2

/-- The head surviving a `dropWhile` fails the predicate. -/
theorem pws_head_dropWhile (p : Char → Bool) : ∀ l : List Char,
    ∀ x ∈ (l.dropWhile p).head?, p x = false := by
  intro l
  induction l with
  | nil => simp
  | cons a as ih =>
    intro x hx
    rw [List.dropWhile_cons] at hx
    by_cases ha : p a = true
    · rw [if_pos ha] at hx
      exact ih x hx
    · rw [if_neg ha] at hx
      simp at hx
      subst hx
      exact Bool.not_eq_true _ ▸ ha

/-- A non-empty suffix has the last element of the whole list. -/
theorem getLast?_of_suffix (s m : List Char) (hs : s <:+ m) (hne : s ≠ []) :
    s.getLast? = m.getLast? := by
  obtain ⟨t, rfl⟩ := hs
  rw [List.getLast?_append]
  obtain ⟨y, hy⟩ := Option.isSome_iff_exists.mp (List.getLast?_isSome.mpr hne)
  rw [hy]
  rfl

/-- `dropWhile` is the identity when the head already fails the
predicate. -/
theorem dropWhile_eq_self_of_head (p : Char → Bool) (l : List Char)
    (h : ∀ x ∈ l.head?, p x = false) : l.dropWhile p = l := by
  cases l with
  | nil => rfl
  | cons a as =>
    rw [List.dropWhile_cons, if_neg]
    rw [h a (by simp)]
    simp

/-- The head of a stripped list is not whitespace. -/
theorem stripL_head_false (l : List Char) :
    ∀ x ∈ (stripL l).head?, pws x = false := by
  intro x hx
  unfold stripL at hx
  rw [List.head?_reverse] at hx
  have hne : (((l.dropWhile pws).reverse).dropWhile pws) ≠ [] := by
    intro hcon
    rw [hcon] at hx
    simp at hx
  rw [getLast?_of_suffix _ _ (List.dropWhile_suffix pws) hne,
    List.getLast?_reverse] at hx
  exact pws_head_dropWhile pws l x hx

/-- The last character of a stripped list is not whitespace. -/
theorem stripL_last_false (l : List Char) :
    ∀ x ∈ (stripL l).reverse.head?, pws x = false := by
  intro x hx
  unfold stripL at hx
  rw [List.reverse_reverse] at hx
  exact pws_head_dropWhile pws (l.dropWhile pws).reverse x hx

/-- Stripping is the identity when both ends are already non-whitespace. -/
theorem stripL_eq_self (l : List Char)
    (hh : ∀ x ∈ l.head?, pws x = false)
    (hl : ∀ x ∈ l.reverse.head?, pws x = false) : stripL l = l := by
  unfold stripL
  rw [dropWhile_eq_self_of_head pws l hh, dropWhile_eq_self_of_head pws l.reverse hl,
    List.reverse_reverse]

/-- The core of C9 at the level of character lists: one more
collapse-and-strip pass leaves a cleaned list unchanged. -/
theorem cleanL_idem (l : List Char) :
    stripL (collapseWS (stripL (collapseWS l))) = stripL (collapseWS l) := by
  have hwok : ∀ c ∈ stripL (collapseWS l), pws c = true → c = ' ' :=
    fun c hc => wok_collapseWS l c (mem_of_mem_stripL c (collapseWS l) hc)
  have hntw : List.Chain' (fun a b => ¬(pws a = true ∧ pws b = true))
      (stripL (collapseWS l)) := by
    unfold stripL
    apply ntw_reverse
    apply List.Chain'.infix _ (List.IsSuffix.isInfix (List.dropWhile_suffix pws))
    apply ntw_reverse
    apply List.Chain'.infix _ (List.IsSuffix.isInfix (List.dropWhile_suffix pws))
    exact ntw_collapseWS l
  rw [collapseWS_eq_self (stripL (collapseWS l)) hwok hntw]
  exact stripL_eq_self (stripL (collapseWS l)) (stripL_head_false (collapseWS l))
    (stripL_last_false (collapseWS l))

/-- C9: the text normaliser is idempotent:
`_clean_text (_clean_text s) = _clean_text s` for every string, where
`_clean_text` collapses every maximal whitespace run to a single space and
strips leading and trailing whitespace. -/
theorem clean_text_idempotent (s : String) :
    _clean_text (_clean_text s) = _clean_text s :=
  congrArg String.mk (cleanL_idem s.data)
